import Mathlib

/-!
# eatmemory.c: a shallow embedding and its verified properties

The program parses one size token, allocates that many bytes in chunks of
1024 bytes (optionally spread over several one-second waves), holds the
memory, and releases it.  The embedding follows `src/eatmemory.c` block by
block:

* the C library calls the program makes (`isdigit`, `atol`, `atoi`,
  `malloc`, `memset`, `free`) are modelled as small functions;
* the heap is explicit state: every `malloc` call gets a fresh block
  identity, a failed `malloc` returns the null pointer `0`;
* machine integers are `Int` with explicit wrapping where the source
  narrows (`atoi` returns a 32-bit `int`, `size` is a 64-bit `long`); a
  product that overflows `long` wraps, as it does on the two's complement
  machines the program is built for;
* undefined behaviour the program can reach through its own pointers and
  counters (a null pointer dereference, an access outside a live block, an
  invalid `free`, the decrement of `INT_MIN`) is a separate result,
  `Res.fault`;
* the argument library is outside the model: `main` starts from what it
  returns (`Args`).  Tokens are the strings of `argv`, shorter than `2^31`
  characters, so `int len = strlen (..)` does not narrow.

The definitions come first, then the theorems: size resolution, the runs
on which the program departs from its documentation, and the allocation
and release of a successful run.
-/

namespace EatMemory

/-! ## Machine integers -/

/-- Value of `x` after conversion to a `w`-bit two's complement integer. -/
def wrapInt (w : Nat) (x : Int) : Int :=
  (x + 2 ^ (w - 1)) % 2 ^ w - 2 ^ (w - 1)

/-- Largest value of the 64-bit `long`. -/
def LONG_MAX : Int := 2 ^ 63 - 1

/-- Smallest value of the 64-bit `long`. -/
def LONG_MIN : Int := -(2 ^ 63)

/-- Largest value of the 32-bit `int`. -/
def INT_MAX : Int := 2 ^ 31 - 1

/-- Smallest value of the 32-bit `int`. -/
def INT_MIN : Int := -(2 ^ 31)

/-! ## C library: character classes and number parsing -/

/-- The `isdigit` of `<ctype.h>`: the ten decimal digits. -/
def isdigit (c : Char) : Bool :=
  decide (48 ≤ c.toNat ∧ c.toNat ≤ 57)

/-- The `isspace` of `<ctype.h>` in the C locale: space, `\t`, `\n`, `\v`, `\f`, `\r`. -/
def isspace (c : Char) : Bool :=
  decide (c.toNat = 32 ∨ (9 ≤ c.toNat ∧ c.toNat ≤ 13))

/-- Numeric value of a digit character. -/
def digitVal (c : Char) : Nat := c.toNat - 48

/-- Reads the longest run of leading decimal digits, accumulating onto `acc`. -/
def readDigits : List Char → Nat → Nat
  | [], acc => acc
  | c :: cs, acc => if isdigit c then readDigits cs (acc * 10 + digitVal c) else acc

/-- Clamps to the range of `long`, as `strtol` does on overflow. -/
def clampLong (x : Int) : Int :=
  if x > LONG_MAX then LONG_MAX else if x < LONG_MIN then LONG_MIN else x

/-- The `strtol(s, NULL, 10)` of `<stdlib.h>`: skip white space, read an optional sign,
read the leading digits, saturate at the ends of `long`. -/
def strtol (s : List Char) : Int :=
  match s.dropWhile isspace with
  | '-' :: r => clampLong (-(readDigits r 0 : Int))
  | '+' :: r => clampLong (readDigits r 0)
  | r => clampLong (readDigits r 0)

/-- The `atol` of `<stdlib.h>`. -/
def atol (s : List Char) : Int := strtol s

/-- The `atoi` of `<stdlib.h>`, as glibc defines it: `(int) strtol(s, NULL, 10)`,
the conversion to `int` keeping the low 32 bits. -/
def atoi (s : List Char) : Int := wrapInt 32 (strtol s)

/-! ## Size resolution (`main`, lines 119-143) -/

/-- The factor `(unit=='M'?1024*1024:1024*1024*1024)`, computed in `int`. -/
def unitFactor (unit : Char) : Int :=
  if unit = 'M' then 1024 * 1024 else 1024 * 1024 * 1024

/-- The value the variable `size` holds after lines 119-139, for a token whose last
character is `unit`; `none` is the `Invalid size format` exit.  `freeMem` is
`some (getFreeSystemMemory ())` when `MEMORY_PERCENTAGE` is defined, else `none`.
Products are computed in the 64-bit `long`. -/
def sizeOfToken (freeMem : Option Nat) (tok : List Char) (unit : Char) : Option Int :=
  if !isdigit unit then
    if unit = 'M' ∨ unit = 'G' then
      -- memory_to_eat[len-1]=0 cuts the unit off before atol reads the string
      some (wrapInt 64 (atol tok.dropLast * unitFactor unit))
    else
      match freeMem with
      | some free =>
        if unit = '%' then
          some (Int.tdiv (wrapInt 64 (atol tok * wrapInt 64 free)) 100)
        else none
      | none => none
  else
    some (atoi tok)

/-- How size resolution ends. -/
inductive Resolution where
  | invalidFormat
  | invalidSize
  | size (bytes : Int)
  deriving DecidableEq, Repr

/-- Lines 119-143 for a non-empty token: the unit is the last character; a
non-positive size is refused. -/
def resolveSize (freeMem : Option Nat) (tok : List Char) (unit : Char) : Resolution :=
  match sizeOfToken freeMem tok unit with
  | none => .invalidFormat
  | some size => if size ≤ 0 then .invalidSize else .size size

/-! ## Heap and trace -/

/-- The three `malloc` call sites of the program. -/
inductive Site where
  | waves   -- `all_eaten_chunks`, the array of waves (`main`, line 167)
  | index   -- `allocations`, the array of chunk pointers of one wave (`eat`, line 72)
  | chunk   -- `buffer`, one chunk (`eat`, line 75)
  deriving DecidableEq, Repr

/-- An allocated block.  A pointer is the number of the `malloc` call that returned
it, counted from 1; the null pointer is `0`. -/
structure Block where
  ptr : Nat
  site : Site
  bytes : Nat
  deriving DecidableEq, Repr

/-- Observable steps of a run, in the order they happen. -/
inductive Event where
  | eat (total chunk : Int)
  | sleep (secs : Int)
  | getchar
  | digest (eaten : Nat) (total chunk : Int)
  deriving DecidableEq, Repr

/-- Program state: the heap of the allocations made by `eatmemory.c` itself (the
argument library manages its own memory), and the trace. -/
structure State where
  /-- Number of `malloc` calls made so far. -/
  calls : Nat
  /-- Blocks allocated and not yet freed, oldest first. -/
  live : List Block
  /-- Number of leading bytes of a block that `memset` has zero-filled. -/
  zeroed : Nat → Nat
  /-- Pointer stored in slot `i` of the pointer array at `p`. -/
  slot : Nat → Nat → Nat
  /-- The pointers released by `free`, in the order of the calls. -/
  freed : List Nat
  /-- Trace of the run. -/
  log : List Event

/-- State at program start. -/
def State.init : State :=
  { calls := 0, live := [], zeroed := fun _ => 0, slot := fun _ _ => 0, freed := [], log := [] }

/-- Appends an event to the trace. -/
def State.emit (s : State) (e : Event) : State :=
  { s with log := s.log ++ [e] }

/-- Result of a step that may run into undefined behaviour. -/
inductive Res (α : Type) where
  | ok (val : α) (s : State)
  | fault (s : State)

/-- Conversion of an integer to the 64-bit unsigned `size_t`. -/
def toSizeT (x : Int) : Nat := (x % 2 ^ 64).toNat

/-- The call `malloc(bytes)`.  Whether the `k`-th call of the run (from 0) succeeds is
decided by `orc k`; a failed call returns the null pointer. -/
def malloc (orc : Nat → Bool) (site : Site) (bytes : Nat) (s : State) : Nat × State :=
  if orc s.calls then
    (s.calls + 1,
      { s with calls := s.calls + 1, live := s.live ++ [⟨s.calls + 1, site, bytes⟩] })
  else
    (0, { s with calls := s.calls + 1 })

/-- Whether `p` points to a live block of at least `n` bytes. -/
def validBytes (p n : Nat) (s : State) : Bool :=
  s.live.any (fun b => b.ptr == p && decide (n ≤ b.bytes))

/-- The call `memset(p, 0, n)`: `none` is undefined behaviour (writing through the null
pointer or outside a live block).  A call with `n = 0` through the null pointer is
taken to do nothing. -/
def memset (p n : Nat) (s : State) : Option State :=
  if p = 0 ∧ n = 0 then some s
  else if validBytes p n s then
    some { s with
      zeroed := fun q => if q = p then n else s.zeroed q,
      slot := fun q i => if q = p then 0 else s.slot q i }
  else none

/-- The assignment `p[i] = v` to a slot of a pointer array (8 bytes a slot). -/
def store (p i v : Nat) (s : State) : Option State :=
  if validBytes p (8 * (i + 1)) s then
    some { s with slot := fun q j => if q = p ∧ j = i then v else s.slot q j }
  else none

/-- The read `p[i]` of a slot of a pointer array. -/
def load (p i : Nat) (s : State) : Option Nat :=
  if validBytes p (8 * (i + 1)) s then some (s.slot p i) else none

/-- The call `free(p)`: nothing happens for the null pointer; freeing a pointer
that is not live (a double free) is undefined behaviour. -/
def free (p : Nat) (s : State) : Option State :=
  if p = 0 then some s
  else if s.live.any (fun b => b.ptr == p) then
    some { s with live := s.live.filter (fun b => b.ptr != p), freed := s.freed ++ [p] }
  else none

/-! ## `eat` and `digest` -/

/-- The loop of `eat` (lines 74-81): `k` iterations remain, `i` is the loop index.
A failed chunk allocation returns the null pointer at once (line 77). -/
def eatLoop (orc : Nat → Bool) (allocations : Nat) (chunk : Int) :
    Nat → Nat → State → Res Nat
  | 0, _, s => .ok allocations s
  | k + 1, i, s =>
    match malloc orc .chunk (toSizeT chunk) s with
    | (buffer, s1) =>
      if buffer = 0 then .ok 0 s1
      else
        match memset buffer (toSizeT chunk) s1 with
        | none => .fault s1
        | some s2 =>
          match store allocations i buffer s2 with
          | none => .fault s2
          | some s3 => eatLoop orc allocations chunk k (i + 1) s3

/-- The function `eat` (lines 70-83).  The index array is not checked against
null before `memset` writes through it. -/
def eat (orc : Nat → Bool) (total chunk : Int) (s0 : State) : Res Nat :=
  let s := s0.emit (.eat total chunk)
  if chunk = 0 then .fault s
  else
    let n := Int.tdiv total chunk
    match malloc orc .index (toSizeT (8 * n)) s with
    | (allocations, s1) =>
      match memset allocations (toSizeT (8 * n)) s1 with
      | none => .fault s1
      | some s2 => eatLoop orc allocations chunk n.toNat 0 s2

/-- The loop of `digest` (lines 87-89). -/
def digestLoop (eaten : Nat) : Nat → Nat → State → Res Unit
  | 0, _, s => .ok () s
  | k + 1, i, s =>
    match load eaten i s with
    | none => .fault s
    | some p =>
      match free p s with
      | none => .fault s
      | some s1 => digestLoop eaten k (i + 1) s1

/-- The function `digest` (lines 85-92). -/
def digest (eaten : Nat) (total chunk : Int) (s0 : State) : Res Unit :=
  let s := s0.emit (.digest eaten total chunk)
  if chunk = 0 then .fault s
  else
    match digestLoop eaten (Int.tdiv total chunk).toNat 0 s with
    | .fault s1 => .fault s1
    | .ok _ s1 =>
      match free eaten s1 with
      | none => .fault s1
      | some s2 => .ok () s2

/-! ## `main` -/

/-- What the argument library hands to `main`: whether `--help` was found, the
positional arguments, and the values of `--timeout` and `--gradual` (both
default to `-1`). -/
structure Args where
  help : Bool
  posArgs : List (List Char)
  timeout : Int
  gradual : Int

/-- The environment of a run. -/
structure Env where
  /-- Value of `getFreeSystemMemory ()` when `MEMORY_PERCENTAGE` is defined. -/
  freeMem : Option Nat
  /-- Value of `isatty(fileno(stdin))`. -/
  tty : Bool
  /-- Whether the `k`-th `malloc` call succeeds. -/
  orc : Nat → Bool

/-- The three branches of the hold phase (lines 187-198). -/
inductive Hold where
  | enter
  | sleep (secs : Int)
  | forever
  deriving DecidableEq, Repr

/-- How a run ends. -/
inductive Outcome where
  | help            -- line 105, `exit(0)`
  | usage           -- line 110, `exit(1)`
  | invalidFormat   -- line 135, `exit(0)`
  | invalidSize     -- line 142, `exit(1)`
  | configError     -- line 151, `exit(1)`
  | finished        -- `main` runs to its end: status 0
  | hangs           -- the endless loop of lines 195-197
  | fault           -- undefined behaviour
  deriving DecidableEq, Repr

/-- Exit status of the process, when it exits by itself. -/
def Outcome.exitStatus : Outcome → Option Nat
  | .help => some 0
  | .usage => some 1
  | .invalidFormat => some 0
  | .invalidSize => some 1
  | .configError => some 1
  | .finished => some 0
  | .hangs => none
  | .fault => none

/-- Record of a run. -/
structure Run where
  outcome : Outcome
  /-- The branch of the hold phase, when the run entered it. -/
  hold : Option Hold
  /-- The state when the hold phase began. -/
  held : Option State
  /-- Whether the release loop (line 199) was started. -/
  released : Bool
  /-- The state when the run ended. -/
  final : State

/-- A run that stops before the hold phase. -/
def Run.stop (o : Outcome) (s : State) : Run :=
  { outcome := o, hold := none, held := none, released := false, final := s }

/-- The allocation loop of `main` (lines 170-182): `k` iterations remain, `i` is
the loop index; the result is the value of `timeout` after the loop.  The
decrement `timeout--` of an `int` that holds `INT_MIN` overflows, which is
undefined behaviour. -/
def allocLoop (orc : Nat → Bool) (all : Nat) (allocSize chunk : Int) :
    Nat → Nat → Int → State → Res Int
  | 0, _, timeout, s => .ok timeout s
  | k + 1, i, timeout, s =>
    match eat orc allocSize chunk s with
    | .fault s1 => .fault s1
    | .ok eaten s1 =>
      match store all i eaten s1 with
      | none => .fault s1
      | some s2 =>
        if eaten = 0 then .ok 0 s2
        else if timeout - 1 < INT_MIN then .fault (s2.emit (.sleep 1))
        else allocLoop orc all allocSize chunk k (i + 1) (timeout - 1) (s2.emit (.sleep 1))

/-- The release loop of `main` (lines 199-202). -/
def releaseLoop (all : Nat) (allocSize chunk : Int) : Nat → Nat → State → Res Unit
  | 0, _, s => .ok () s
  | k + 1, i, s =>
    match load all i s with
    | none => .fault s
    | some eaten =>
      match digest eaten allocSize chunk s with
      | .fault s1 => .fault s1
      | .ok _ s1 =>
        match store all i 0 s1 with
        | none => .fault s1
        | some s2 => releaseLoop all allocSize chunk k (i + 1) s2

/-- The choice of lines 187-198. -/
def holdChoice (timeout : Int) (tty : Bool) : Hold :=
  if timeout < 0 ∧ tty = true then .enter
  else if timeout ≥ 0 then .sleep timeout
  else .forever

/-- The release phase (lines 199-203), entered from state `s` once the hold ended. -/
def release (h : Hold) (held : State) (all : Nat) (allocCount allocSize chunk : Int)
    (s : State) : Run :=
  match releaseLoop all allocSize chunk allocCount.toNat 0 s with
  | .fault s1 =>
    { outcome := .fault, hold := some h, held := some held, released := true, final := s1 }
  | .ok _ s1 =>
    match free all s1 with
    | none =>
      { outcome := .fault, hold := some h, held := some held, released := true, final := s1 }
    | some s2 =>
      { outcome := .finished, hold := some h, held := some held, released := true, final := s2 }

/-- The hold phase and what follows it (lines 187-203), entered from state `s` with
the value `timeout` left by the allocation loop. -/
def holdPhase (timeout : Int) (tty : Bool) (all : Nat) (allocCount allocSize chunk : Int)
    (s : State) : Run :=
  match holdChoice timeout tty with
  | .enter => release .enter s all allocCount allocSize chunk (s.emit .getchar)
  | .sleep t => release (.sleep t) s all allocCount allocSize chunk (s.emit (.sleep t))
  | .forever =>
    { outcome := .hangs, hold := some .forever, held := some s, released := false, final := s }

/-- Lines 147-208 of `main`: everything after the size is resolved. -/
def runWithSize (size timeout gradual : Int) (e : Env) : Run :=
  if timeout < gradual then Run.stop .configError State.init
  else
    let allocCount : Int := if gradual > 0 then gradual else 1
    let allocSize : Int := if gradual > 0 then Int.tdiv size gradual else size
    let chunk : Int := 1024
    match malloc e.orc .waves (toSizeT (8 * allocCount)) State.init with
    | (all, s1) =>
      match memset all (toSizeT (8 * allocCount)) s1 with
      | none => Run.stop .fault s1
      | some s2 =>
        match allocLoop e.orc all allocSize chunk allocCount.toNat 0 timeout s2 with
        | .fault s3 => Run.stop .fault s3
        | .ok timeout1 s3 =>
          if all ≠ 0 then holdPhase timeout1 e.tty all allocCount allocSize chunk s3
          else Run.stop .finished s3

/-- The function `main` (lines 94-209). -/
def main (a : Args) (e : Env) : Run :=
  if a.help then Run.stop .help State.init
  else
    match a.posArgs with
    | [tok] =>
      match tok.getLast? with
      | none => Run.stop .fault State.init   -- reads `memory_to_eat[-1]`
      | some unit =>
        match resolveSize e.freeMem tok unit with
        | .invalidFormat => Run.stop .invalidFormat State.init
        | .invalidSize => Run.stop .invalidSize State.init
        | .size size => runWithSize size a.timeout a.gradual e
    | _ => Run.stop .usage State.init

/-! ## Vocabulary of the specification -/

/-- State carried by a result. -/
def Res.state {α : Type} : Res α → State
  | .ok _ s => s
  | .fault s => s

/-- Value of a result, when there is one. -/
def Res.val? {α : Type} : Res α → Option α
  | .ok v _ => some v
  | .fault _ => none

/-- Decimal value of a string of digits, most significant digit first. -/
def decimalValue (ds : List Char) : Nat :=
  Nat.ofDigits 10 (ds.reverse.map digitVal)

/-- The units the resolver accepts: a digit, `M`, `G`, and `%` when the memory
query is available. -/
def unitAccepted (freeMem : Option Nat) (unit : Char) : Prop :=
  isdigit unit = true ∨ unit = 'M' ∨ unit = 'G' ∨ (freeMem.isSome = true ∧ unit = '%')

/-- The specification's `waveCount`: the gradual window if positive, else 1. -/
def waveCount (gradual : Int) : Int := if gradual > 0 then gradual else 1

/-- The specification's `waveSize`: `size / waveCount` (truncating) when gradual, else
`size`. -/
def waveSize (size gradual : Int) : Int :=
  if gradual > 0 then Int.tdiv size (waveCount gradual) else size

/-- The blocks of `k` chunks of `sz` bytes, allocated one after the other from
pointer `p` on. -/
def chunkBlocks (sz : Nat) : Nat → Nat → List Block
  | 0, _ => []
  | k + 1, p => ⟨p, .chunk, sz⟩ :: chunkBlocks sz k (p + 1)

/-- The blocks of one wave of `n` chunks: the index array at `base`, then the chunks. -/
def waveBlocks (n sz base : Nat) : List Block :=
  ⟨base, .index, 8 * n⟩ :: chunkBlocks sz n (base + 1)

/-- The blocks of `k` successive waves of `n` chunks each, the first at `base`. -/
def wavesBlocks (n sz : Nat) : Nat → Nat → List Block
  | 0, _ => []
  | k + 1, base => waveBlocks n sz base ++ wavesBlocks n sz k (base + n + 1)

/-- Slots `i`, `i+1`, ... of the array `all` point to `k` successive waves of `n`
chunks, the first at `base`, and each index array points to its chunks. -/
def WavesAt (s : State) (all n : Nat) : Nat → Nat → Nat → Prop
  | 0, _, _ => True
  | k + 1, i, base =>
    all < base ∧ s.slot all i = base ∧ (∀ j, j < n → s.slot base j = base + 1 + j) ∧
      WavesAt s all n k (i + 1) (base + n + 1)

/-- Trace of `k` successful iterations of the allocation loop. -/
def allocLog (total chunk : Int) : Nat → List Event
  | 0 => []
  | k + 1 => .eat total chunk :: .sleep 1 :: allocLog total chunk k

/-- Trace of the release loop over `k` waves of `n` chunks, the first at `base`. -/
def releaseLog (total chunk : Int) (n : Nat) : Nat → Nat → List Event
  | 0, _ => []
  | k + 1, base => .digest base total chunk :: releaseLog total chunk n k (base + n + 1)

/-- Total size of the chunk blocks of a heap. -/
def chunkBytes (l : List Block) : Nat :=
  ((l.filter (fun b => decide (b.site = .chunk))).map (fun b => b.bytes)).sum

/-- The event a finite hold leaves in the trace. -/
def Hold.event : Hold → List Event
  | .enter => [.getchar]
  | .sleep t => [.sleep t]
  | .forever => []

/-- An allocator that never fails. -/
def plenty : Nat → Bool := fun _ => true

/-- An allocator whose call number `k` (from 0) fails, and no other. -/
def failAt (k : Nat) : Nat → Bool := fun j => j != k

/-! ## Size resolution -/

theorem sizeOfToken_isSome_iff (freeMem : Option Nat) (tok : List Char) (unit : Char) :
    (sizeOfToken freeMem tok unit).isSome = true ↔ unitAccepted freeMem unit := by
  unfold sizeOfToken unitAccepted
  cases hd : isdigit unit <;> cases freeMem <;> by_cases hM : unit = 'M' <;>
    by_cases hG : unit = 'G' <;> by_cases hP : unit = '%' <;> simp [hd, hM, hG, hP]

theorem resolveSize_cases (freeMem : Option Nat) (tok : List Char) (unit : Char) :
    (sizeOfToken freeMem tok unit = none ∧ resolveSize freeMem tok unit = .invalidFormat) ∨
    (∃ v, sizeOfToken freeMem tok unit = some v ∧ v ≤ 0 ∧
      resolveSize freeMem tok unit = .invalidSize) ∨
    (∃ v, sizeOfToken freeMem tok unit = some v ∧ 0 < v ∧
      resolveSize freeMem tok unit = .size v) := by
  unfold resolveSize
  cases h : sizeOfToken freeMem tok unit with
  | none => exact Or.inl ⟨rfl, rfl⟩
  | some v =>
    by_cases hv : v ≤ 0
    · exact Or.inr (Or.inl ⟨v, rfl, hv, by simp [hv]⟩)
    · exact Or.inr (Or.inr ⟨v, rfl, by omega, by simp [hv]⟩)

theorem main_routes (a : Args) (e : Env) (tok : List Char) (unit : Char)
    (hhelp : a.help = false) (hargs : a.posArgs = [tok]) (hunit : tok.getLast? = some unit) :
    (resolveSize e.freeMem tok unit = .invalidFormat →
      main a e = Run.stop .invalidFormat State.init) ∧
    (resolveSize e.freeMem tok unit = .invalidSize →
      main a e = Run.stop .invalidSize State.init) ∧
    (∀ v, resolveSize e.freeMem tok unit = .size v →
      main a e = runWithSize v a.timeout a.gradual e) := by
  unfold main
  refine ⟨fun h => ?_, fun h => ?_, fun v h => ?_⟩ <;> simp [hhelp, hargs, hunit, h]

/-- C10: for a run with one non-empty size token whose last character is `unit`,
resolution ends in exactly one of three ways.  It is `InvalidFormat` (status 0)
if and only if `unit` is not a digit, `M`, `G` or, when the memory query is
available, `%`.  For an accepted unit the variable `size` gets a value `v`, and
resolution is `InvalidSize` (status 1) if and only if `v ≤ 0`, and passes `v` on
if and only if `0 < v`.  Both failures end the run before any allocation, and a
size that is passed on is positive: the rest of `main` runs with that size. -/
theorem resolver_classifies (a : Args) (e : Env) (tok : List Char) (unit : Char)
    (hhelp : a.help = false) (hargs : a.posArgs = [tok]) (hunit : tok.getLast? = some unit) :
    (resolveSize e.freeMem tok unit = .invalidFormat ↔ ¬ unitAccepted e.freeMem unit) ∧
    (unitAccepted e.freeMem unit → ∃ v, sizeOfToken e.freeMem tok unit = some v ∧
      (resolveSize e.freeMem tok unit = .invalidSize ↔ v ≤ 0) ∧
      (resolveSize e.freeMem tok unit = .size v ↔ 0 < v)) ∧
    (∀ v, resolveSize e.freeMem tok unit = .size v → 0 < v) ∧
    (resolveSize e.freeMem tok unit = .invalidFormat →
      (main a e).outcome = .invalidFormat ∧ (main a e).outcome.exitStatus = some 0 ∧
        (main a e).final.calls = 0) ∧
    (resolveSize e.freeMem tok unit = .invalidSize →
      (main a e).outcome = .invalidSize ∧ (main a e).outcome.exitStatus = some 1 ∧
        (main a e).final.calls = 0) ∧
    (∀ v, resolveSize e.freeMem tok unit = .size v →
      main a e = runWithSize v a.timeout a.gradual e) := by
  have hacc := sizeOfToken_isSome_iff e.freeMem tok unit
  have hroute := main_routes a e tok unit hhelp hargs hunit
  rcases resolveSize_cases e.freeMem tok unit with ⟨hs, hr⟩ | ⟨v, hs, hv, hr⟩ | ⟨v, hs, hv, hr⟩
  · rw [hs] at hacc
    rw [hr]
    have hna : ¬ unitAccepted e.freeMem unit := fun h => by simpa using hacc.2 h
    refine ⟨⟨fun _ => hna, fun _ => rfl⟩, fun h => absurd h hna, fun v h => (by cases h),
      fun _ => ?_, fun h => (by cases h), fun v h => (by cases h)⟩
    rw [hroute.1 hr]; exact ⟨rfl, rfl, rfl⟩
  · rw [hs] at hacc
    rw [hr]
    have hacc' : unitAccepted e.freeMem unit := hacc.1 rfl
    refine ⟨⟨fun h => (by cases h), fun h => absurd hacc' h⟩,
      fun _ => ⟨v, hs, ⟨fun _ => hv, fun _ => rfl⟩, ⟨fun h => (by cases h), fun h => (by omega)⟩⟩,
      fun w h => (by cases h), fun h => (by cases h), fun _ => ?_, fun w h => (by cases h)⟩
    rw [hroute.2.1 hr]; exact ⟨rfl, rfl, rfl⟩
  · rw [hs] at hacc
    rw [hr]
    have hacc' : unitAccepted e.freeMem unit := hacc.1 rfl
    refine ⟨⟨fun h => (by cases h), fun h => absurd hacc' h⟩,
      fun _ => ⟨v, hs, ⟨fun h => (by cases h), fun h => (by omega)⟩, ⟨fun _ => hv, fun _ => rfl⟩⟩,
      fun w h => ?_, fun h => (by cases h), fun h => (by cases h), fun w h => ?_⟩
    · cases h; exact hv
    · cases h; exact hroute.2.2 v hr

/-- C10 at the token `0`: `InvalidSize`, status 1, nothing allocated. -/
theorem resolver_classifies_witness :
    (main ⟨false, ["0".toList], -1, -1⟩ ⟨none, true, plenty⟩).outcome = .invalidSize ∧
    (main ⟨false, ["0".toList], -1, -1⟩ ⟨none, true, plenty⟩).outcome.exitStatus = some 1 ∧
    (main ⟨false, ["0".toList], -1, -1⟩ ⟨none, true, plenty⟩).final.calls = 0 :=
  (resolver_classifies ⟨false, ["0".toList], -1, -1⟩ ⟨none, true, plenty⟩ "0".toList '0'
    rfl rfl rfl).2.2.2.2.1 (by decide)



theorem wrapInt_long (x : Int) (hlo : LONG_MIN ≤ x) (hhi : x ≤ LONG_MAX) :
    wrapInt 64 x = x := by
  unfold LONG_MIN at hlo
  unfold LONG_MAX at hhi
  unfold wrapInt
  norm_num at hlo hhi ⊢
  omega

theorem decimalValue_cons (c : Char) (cs : List Char) :
    decimalValue (c :: cs) = digitVal c * 10 ^ cs.length + decimalValue cs := by
  unfold decimalValue
  simp [Nat.ofDigits_append, Nat.ofDigits_singleton]
  ring

theorem readDigits_digits (ds : List Char) (hd : ∀ c ∈ ds, isdigit c = true) (acc : Nat) :
    readDigits ds acc = acc * 10 ^ ds.length + decimalValue ds := by
  induction ds generalizing acc with
  | nil => simp [readDigits, decimalValue]
  | cons c cs ih =>
    have hc : isdigit c = true := hd c (List.mem_cons_self c cs)
    have hcs : ∀ x ∈ cs, isdigit x = true := fun x hx => hd x (List.mem_cons_of_mem c hx)
    simp only [readDigits, hc, if_true]
    rw [ih hcs, decimalValue_cons, List.length_cons]
    ring

theorem isspace_of_isdigit (c : Char) (h : isdigit c = true) : isspace c = false := by
  unfold isdigit at h
  unfold isspace
  simp only [decide_eq_true_eq] at h
  simp only [decide_eq_false_iff_not]
  omega

theorem strtol_digits (ds : List Char) (hd : ∀ c ∈ ds, isdigit c = true) :
    strtol ds = clampLong (decimalValue ds) := by
  have hdw : ds.dropWhile isspace = ds := by
    cases ds with
    | nil => rfl
    | cons c cs =>
      simp [List.dropWhile, isspace_of_isdigit c (hd c (List.mem_cons_self c cs))]
  have hrd := readDigits_digits ds hd 0
  unfold strtol
  rw [hdw]
  split
  · exact absurd (hd '-' (List.mem_cons_self _ _)) (by decide)
  · exact absurd (hd '+' (List.mem_cons_self _ _)) (by decide)
  · rw [hrd]; simp

theorem sizeOfToken_unit (freeMem : Option Nat) (ds : List Char) (u : Char)
    (hd : ∀ c ∈ ds, isdigit c = true) (hu : u = 'M' ∨ u = 'G')
    (hrep : (decimalValue ds : Int) * unitFactor u ≤ LONG_MAX) :
    sizeOfToken freeMem (ds ++ [u]) u = some ((decimalValue ds : Int) * unitFactor u) := by
  have hnd : isdigit u = false := by rcases hu with h | h <;> subst h <;> decide
  have hf : 1 ≤ unitFactor u := by rcases hu with h | h <;> subst h <;> decide
  have hn : (0 : Int) ≤ decimalValue ds := Int.natCast_nonneg _
  have hle : (decimalValue ds : Int) ≤ (decimalValue ds : Int) * unitFactor u :=
    le_mul_of_one_le_right hn hf
  have hclamp : clampLong (decimalValue ds) = decimalValue ds := by
    unfold clampLong
    have h1 : ¬ ((decimalValue ds : Int) > LONG_MAX) := by omega
    have h2 : ¬ ((decimalValue ds : Int) < LONG_MIN) := by unfold LONG_MIN; omega
    simp [h1, h2]
  unfold sizeOfToken
  simp only [hnd, hu, Bool.not_false, if_true, List.dropLast_concat]
  rw [atol, strtol_digits ds hd, hclamp, wrapInt_long _ (by unfold LONG_MIN; omega) hrep]

/-- C2: for a token made of decimal digits of value `n` followed by `M`, the variable
`size` gets exactly `n * 1048576` whenever that product fits the 64-bit `long`;
followed by `G`, exactly `n * 1073741824`.  When `n` is positive that product
is the resolved size, and the rest of `main` runs with it. -/
theorem unit_token_exact (a : Args) (e : Env) (ds : List Char)
    (hd : ∀ c ∈ ds, isdigit c = true) :
    ((decimalValue ds : Int) * 1048576 ≤ LONG_MAX →
      sizeOfToken e.freeMem (ds ++ ['M']) 'M' = some ((decimalValue ds : Int) * 1048576) ∧
      (0 < decimalValue ds → a.help = false → a.posArgs = [ds ++ ['M']] →
        resolveSize e.freeMem (ds ++ ['M']) 'M' = .size ((decimalValue ds : Int) * 1048576) ∧
        main a e = runWithSize ((decimalValue ds : Int) * 1048576) a.timeout a.gradual e)) ∧
    ((decimalValue ds : Int) * 1073741824 ≤ LONG_MAX →
      sizeOfToken e.freeMem (ds ++ ['G']) 'G' = some ((decimalValue ds : Int) * 1073741824) ∧
      (0 < decimalValue ds → a.help = false → a.posArgs = [ds ++ ['G']] →
        resolveSize e.freeMem (ds ++ ['G']) 'G'
          = .size ((decimalValue ds : Int) * 1073741824) ∧
        main a e = runWithSize ((decimalValue ds : Int) * 1073741824)
          a.timeout a.gradual e)) := by
  have key : ∀ (u : Char) (f : Int), (u = 'M' ∨ u = 'G') → unitFactor u = f → 0 < f →
      (decimalValue ds : Int) * f ≤ LONG_MAX →
      sizeOfToken e.freeMem (ds ++ [u]) u = some ((decimalValue ds : Int) * f) ∧
      (0 < decimalValue ds → a.help = false → a.posArgs = [ds ++ [u]] →
        resolveSize e.freeMem (ds ++ [u]) u = .size ((decimalValue ds : Int) * f) ∧
        main a e = runWithSize ((decimalValue ds : Int) * f) a.timeout a.gradual e) := by
    intro u f hu hf hfpos hrep
    have hs := sizeOfToken_unit e.freeMem ds u hd hu (by rw [hf]; exact hrep)
    rw [hf] at hs
    refine ⟨hs, fun hpos hhelp hargs => ?_⟩
    have hv : (0 : Int) < (decimalValue ds : Int) * f :=
      Int.mul_pos (by exact_mod_cast hpos) hfpos
    have hr : resolveSize e.freeMem (ds ++ [u]) u = .size ((decimalValue ds : Int) * f) := by
      unfold resolveSize
      rw [hs]
      simp only [not_le.mpr hv, if_false]
    exact ⟨hr, (main_routes a e (ds ++ [u]) u hhelp hargs (by simp)).2.2 _ hr⟩
  exact ⟨key 'M' 1048576 (Or.inl rfl) (by decide) (by decide),
    key 'G' 1073741824 (Or.inr rfl) (by decide) (by decide)⟩

/-- C2 at the token `15M`: 15728640 bytes. -/
theorem unit_token_exact_witness :
    sizeOfToken none "15M".toList 'M' = some 15728640 ∧
    main ⟨false, ["15M".toList], -1, -1⟩ ⟨none, true, plenty⟩ =
      runWithSize 15728640 (-1) (-1) ⟨none, true, plenty⟩ :=
  have h := (unit_token_exact ⟨false, ["15M".toList], -1, -1⟩ ⟨none, true, plenty⟩ "15".toList
    (by decide)).1 (by decide)
  ⟨h.1, (h.2 (by decide) rfl rfl).2⟩

/-! ## Narrowing of a byte-count token -/

/-- C1 (violated by the code): a digit-only token goes through `atoi` (line 138), which
returns a 32-bit `int`, so a byte count above `2^31 - 1` does not reach `size`
unchanged: `2147483648` becomes negative and is refused as `InvalidSize`, and
`4294967297` resolves to 1 byte, while the `M`/`G` path reads the same digits
with `atol`. -/
theorem digit_token_narrowed :
    decimalValue "2147483648".toList = 2147483648 ∧
    (2147483648 : Int) ≤ LONG_MAX ∧
    sizeOfToken none "2147483648".toList '8' = some (-2147483648) ∧
    (main ⟨false, ["2147483648".toList], -1, -1⟩ ⟨none, true, plenty⟩).outcome
      = .invalidSize ∧
    resolveSize none "4294967297".toList '7' = .size 1 ∧
    atol "4294967297".toList = 4294967297 := by
  decide

/-! ## Validation of timeout against the gradual window -/

/-- C3 (violated by the code): with a gradual window of 10 and no timeout option the
comparison of line 149 reads the default `-1` as a timeout, `-1 < 10` holds, and
the run stops with the configuration error, status 1, before any allocation. -/
theorem gradual_without_timeout_rejected :
    (main ⟨false, ["1024".toList], -1, 10⟩ ⟨none, true, plenty⟩).outcome = .configError ∧
    (main ⟨false, ["1024".toList], -1, 10⟩ ⟨none, true, plenty⟩).outcome.exitStatus
      = some 1 ∧
    (main ⟨false, ["1024".toList], -1, 10⟩ ⟨none, true, plenty⟩).final.calls = 0 ∧
    (main ⟨false, ["1024".toList], 5, 10⟩ ⟨none, true, plenty⟩).outcome = .configError := by
  decide

/-! ## Choice of the hold branch -/

/-- C5 (violated by the code): with `-t 0` and no gradual window the single wave
decrements `timeout` to `-1` (line 181), the value that means "no timeout": off a
terminal the run enters the endless loop and never releases, on a terminal it
waits for ENTER. -/
theorem zero_timeout_holds_forever :
    (main ⟨false, ["1024".toList], 0, -1⟩ ⟨none, false, plenty⟩).hold = some .forever ∧
    (main ⟨false, ["1024".toList], 0, -1⟩ ⟨none, false, plenty⟩).outcome = .hangs ∧
    (main ⟨false, ["1024".toList], 0, -1⟩ ⟨none, false, plenty⟩).released = false ∧
    (main ⟨false, ["1024".toList], 0, -1⟩ ⟨none, true, plenty⟩).hold = some .enter := by
  decide

/-! ## Allocation failure -/

/-- C7 (violated by the code): in a 3-wave run whose second wave fails on its chunk
(the fifth `malloc` call), the release loop still covers all three entries: it
frees the first wave, then hands the null entry of the failed wave to `digest`,
which reads `eaten[0]` through the null pointer.  The run ends in undefined
behaviour, not with status 0. -/
theorem later_wave_failure_faults :
    (main ⟨false, ["3072".toList], 3, 3⟩ ⟨none, false, failAt 4⟩).final.log =
      [.eat 1024 1024, .sleep 1, .eat 1024 1024, .sleep 0,
        .digest 2 1024 1024, .digest 0 1024 1024] ∧
    (main ⟨false, ["3072".toList], 3, 3⟩ ⟨none, false, failAt 4⟩).outcome = .fault ∧
    (main ⟨false, ["3072".toList], 3, 3⟩ ⟨none, false, failAt 4⟩).outcome.exitStatus
      = none ∧
    (main ⟨false, ["3072".toList], 3, 3⟩ ⟨none, false, failAt 4⟩).final.live =
      [⟨1, .waves, 24⟩, ⟨4, .index, 8⟩] := by
  decide

/-- C8 (violated by the code): `eat(2048, 1024)` whose second chunk fails returns null
at line 77 and leaves the index array and the first chunk allocated; the heap
after the call differs from the heap before it, and the caller gets no pointer
to free them with. -/
theorem failed_eat_leaks :
    (eat (failAt 2) 2048 1024 State.init).val? = some 0 ∧
    (eat (failAt 2) 2048 1024 State.init).state.live =
      [⟨1, .index, 16⟩, ⟨2, .chunk, 1024⟩] ∧
    (eat (failAt 2) 2048 1024 State.init).state.freed = [] ∧
    State.init.live = [] := by
  decide

/-- C9 (violated by the code): when the only wave fails, line 183 tests the array of
waves, which is not null, so the run enters the hold phase (a sleep of 0
seconds) and starts the release loop, which then hands the null entry to
`digest`. -/
theorem hold_entered_without_wave :
    (main ⟨false, ["1024".toList], 5, -1⟩ ⟨none, false, failAt 2⟩).hold
      = some (.sleep 0) ∧
    (main ⟨false, ["1024".toList], 5, -1⟩ ⟨none, false, failAt 2⟩).released = true ∧
    (main ⟨false, ["1024".toList], 5, -1⟩ ⟨none, false, failAt 2⟩).final.log =
      [.eat 1024 1024, .sleep 0, .digest 0 1024 1024] ∧
    (main ⟨false, ["1024".toList], 5, -1⟩ ⟨none, false, failAt 2⟩).outcome = .fault := by
  decide

/-! ## A wave that succeeds -/

theorem validBytes_of_mem {s : State} {b : Block} {p n : Nat}
    (hb : b ∈ s.live) (hp : b.ptr = p) (hn : n ≤ b.bytes) : validBytes p n s = true := by
  unfold validBytes
  rw [List.any_eq_true]
  exact ⟨b, hb, by simp [hp, hn]⟩

theorem malloc_ok (orc : Nat → Bool) (site : Site) (bytes : Nat) (s : State)
    (h : orc s.calls = true) :
    malloc orc site bytes s =
      (s.calls + 1,
        { s with calls := s.calls + 1, live := s.live ++ [⟨s.calls + 1, site, bytes⟩] }) := by
  simp [malloc, h]

theorem memset_ok (p n : Nat) (s : State) (hp : p ≠ 0) (hv : validBytes p n s = true) :
    memset p n s = some { s with
      zeroed := fun q => if q = p then n else s.zeroed q,
      slot := fun q i => if q = p then 0 else s.slot q i } := by
  simp [memset, hp, hv]

theorem store_ok (p i v : Nat) (s : State) (hv : validBytes p (8 * (i + 1)) s = true) :
    store p i v s =
      some { s with slot := fun q j => if q = p ∧ j = i then v else s.slot q j } := by
  simp [store, hv]

theorem load_ok (p i : Nat) (s : State) (hv : validBytes p (8 * (i + 1)) s = true) :
    load p i s = some (s.slot p i) := by
  simp [load, hv]

theorem eatLoop_ok (orc : Nat → Bool) (al : Nat) (chunk : Int) (k : Nat) :
    ∀ (i : Nat) (s : State),
    (∀ j, j < k → orc (s.calls + j) = true) →
    (∃ b ∈ s.live, b.ptr = al ∧ 8 * (i + k) ≤ b.bytes) →
    al ≤ s.calls →
    ∃ s', eatLoop orc al chunk k i s = .ok al s' ∧
      s'.calls = s.calls + k ∧
      s'.live = s.live ++ chunkBlocks (toSizeT chunk) k (s.calls + 1) ∧
      (∀ j, j < k → s'.slot al (i + j) = s.calls + 1 + j) ∧
      (∀ p q, p ≤ s.calls → (p ≠ al ∨ q < i) → s'.slot p q = s.slot p q) ∧
      (∀ j, j < k → s'.zeroed (s.calls + 1 + j) = toSizeT chunk) ∧
      (∀ p, p ≤ s.calls → s'.zeroed p = s.zeroed p) ∧
      s'.freed = s.freed ∧ s'.log = s.log := by
  induction k with
  | zero =>
    intro i s _ _ _
    exact ⟨s, rfl, rfl, by simp [chunkBlocks], fun j hj => absurd hj (Nat.not_lt_zero j),
      fun _ _ _ _ => rfl, fun j hj => absurd hj (Nat.not_lt_zero j), fun _ _ => rfl, rfl, rfl⟩
  | succ k ih =>
    intro i s horc hal hle
    obtain ⟨b, hb, hbp, hbn⟩ := hal
    have h0 : orc s.calls = true := by simpa using horc 0 (Nat.succ_pos k)
    let s1 : State :=
      { s with calls := s.calls + 1,
               live := s.live ++ [⟨s.calls + 1, .chunk, toSizeT chunk⟩] }
    have hv1 : validBytes (s.calls + 1) (toSizeT chunk) s1 = true :=
      validBytes_of_mem (b := ⟨s.calls + 1, .chunk, toSizeT chunk⟩) (by simp [s1]) rfl
        (Nat.le_refl _)
    let s2 : State :=
      { s1 with zeroed := fun q => if q = s.calls + 1 then toSizeT chunk else s1.zeroed q,
                slot := fun q i => if q = s.calls + 1 then 0 else s1.slot q i }
    have hv2 : validBytes al (8 * (i + 1)) s2 = true :=
      validBytes_of_mem (b := b) (by simp [s2, s1, hb]) hbp (by omega)
    let s3 : State :=
      { s2 with slot := fun q j => if q = al ∧ j = i then s.calls + 1 else s2.slot q j }
    have hstep : eatLoop orc al chunk (k + 1) i s = eatLoop orc al chunk k (i + 1) s3 := by
      rw [eatLoop, malloc_ok orc .chunk (toSizeT chunk) s h0]
      simp only [Nat.succ_ne_zero, if_false]
      rw [memset_ok (s.calls + 1) (toSizeT chunk) s1 (Nat.succ_ne_zero _) hv1]
      simp only []
      rw [store_ok al i (s.calls + 1) s2 hv2]
    obtain ⟨s', hrun, hcalls, hlive, hslot, hframe, hzero, hzframe, hfrees, hlog⟩ :=
      ih (i + 1) s3
        (fun j hj => by
          have := horc (j + 1) (by omega)
          simpa [s3, s2, s1, Nat.add_assoc, Nat.add_comm 1 j] using this)
        ⟨b, by simp [s3, s2, s1, hb], hbp, by omega⟩
        (by simp [s3, s2, s1]; omega)
    refine ⟨s', by rw [hstep, hrun], ?_, ?_, ?_, ?_, ?_, ?_, ?_, ?_⟩
    · rw [hcalls]; simp [s3, s2, s1]; omega
    · rw [hlive]; simp [s3, s2, s1, chunkBlocks]
    · intro j hj
      cases j with
      | zero =>
        rw [Nat.add_zero, hframe al i (by simp [s3, s2, s1]; omega) (Or.inr (Nat.lt_succ_self i))]
        have : al ≠ s.calls + 1 := by omega
        simp [s3, s2, s1]
      | succ j =>
        have := hslot j (by omega)
        simp only [s3, s2, s1] at this
        rw [show i + (j + 1) = i + 1 + j by omega, this]
        omega
    · intro p q hp hpq
      rw [hframe p q (by simp [s3, s2, s1]; omega) (by rcases hpq with h | h; exact Or.inl h; exact Or.inr (by omega))]
      have hp1 : p ≠ s.calls + 1 := by omega
      have : ¬ (p = al ∧ q = i) := by
        rintro ⟨h1, h2⟩
        rcases hpq with h | h
        · exact h h1
        · omega
      simp [s3, s2, s1, hp1, this]
    · intro j hj
      cases j with
      | zero =>
        rw [Nat.add_zero, hzframe (s.calls + 1) (by simp [s3, s2, s1])]
        simp [s3, s2, s1]
      | succ j =>
        have := hzero j (by omega)
        simp only [s3, s2, s1] at this
        rw [show s.calls + 1 + (j + 1) = s.calls + 1 + 1 + j by omega, this]
    · intro p hp
      rw [hzframe p (by simp [s3, s2, s1]; omega)]
      have hp1 : p ≠ s.calls + 1 := by omega
      simp [s3, s2, s1, hp1]
    · rw [hfrees]
    · rw [hlog]

theorem toSizeT_natCast (m : Nat) (h : m < 2 ^ 64) : toSizeT (m : Int) = m := by
  unfold toSizeT
  have : ((m : Int) % 2 ^ 64) = m := Int.emod_eq_of_lt (Int.natCast_nonneg m) (by exact_mod_cast h)
  rw [this, Int.toNat_natCast]

theorem toSizeT_chunk : toSizeT 1024 = 1024 := by decide

theorem eat_ok (orc : Nat → Bool) (total : Int) (n : Nat) (s : State)
    (hn : Int.tdiv total 1024 = (n : Int)) (hbound : 8 * n < 2 ^ 64)
    (horc : ∀ j, j < n + 1 → orc (s.calls + j) = true) :
    ∃ s', eat orc total 1024 s = .ok (s.calls + 1) s' ∧
      s'.calls = s.calls + (n + 1) ∧
      s'.live = s.live ++ waveBlocks n 1024 (s.calls + 1) ∧
      (∀ j, j < n → s'.slot (s.calls + 1) j = s.calls + 2 + j) ∧
      (∀ p q, p ≤ s.calls → s'.slot p q = s.slot p q) ∧
      (∀ j, j < n → s'.zeroed (s.calls + 2 + j) = 1024) ∧
      (∀ p, p ≤ s.calls → s'.zeroed p = s.zeroed p) ∧
      s'.freed = s.freed ∧ s'.log = s.log ++ [.eat total 1024] := by
  have h0 : orc s.calls = true := by simpa using horc 0 (Nat.succ_pos n)
  have hsz : toSizeT (8 * Int.tdiv total 1024) = 8 * n := by
    rw [hn]
    have := toSizeT_natCast (8 * n) hbound
    rwa [Nat.cast_mul] at this
  let s0 : State := s.emit (.eat total 1024)
  let s1 : State :=
    { s0 with calls := s0.calls + 1, live := s0.live ++ [⟨s0.calls + 1, .index, 8 * n⟩] }
  have hv1 : validBytes (s.calls + 1) (8 * n) s1 = true :=
    validBytes_of_mem (b := ⟨s.calls + 1, .index, 8 * n⟩) (by simp [s1, s0, State.emit]) rfl
      (Nat.le_refl _)
  let s2 : State :=
    { s1 with zeroed := fun q => if q = s.calls + 1 then 8 * n else s1.zeroed q,
              slot := fun q i => if q = s.calls + 1 then 0 else s1.slot q i }
  have hstep : eat orc total 1024 s = eatLoop orc (s.calls + 1) 1024 n 0 s2 := by
    unfold eat
    simp only [show (1024 : Int) ≠ 0 by decide, if_false, hsz]
    rw [malloc_ok orc .index (8 * n) (s.emit (.eat total 1024)) h0]
    simp only []
    rw [memset_ok (s0.calls + 1) (8 * n) s1 (Nat.succ_ne_zero _) hv1]
    simp only [hn, Int.toNat_natCast]
    rfl
  obtain ⟨s', hrun, hcalls, hlive, hslot, hframe, hzero, hzframe, hfrees, hlog⟩ :=
    eatLoop_ok orc (s.calls + 1) 1024 n 0 s2
      (fun j hj => by
        have := horc (j + 1) (by omega)
        simpa [s2, s1, s0, State.emit, Nat.add_assoc, Nat.add_comm 1 j] using this)
      ⟨⟨s.calls + 1, .index, 8 * n⟩, by simp [s2, s1, s0, State.emit], rfl, by simp⟩
      (by simp [s2, s1, s0, State.emit])
  rw [toSizeT_chunk] at hlive hzero
  refine ⟨s', by rw [hstep, hrun], ?_, ?_, ?_, ?_, ?_, ?_, ?_, ?_⟩
  · rw [hcalls]; simp [s2, s1, s0, State.emit]; omega
  · rw [hlive]; simp [s2, s1, s0, State.emit, waveBlocks]
  · intro j hj
    have := hslot j hj
    simp only [s2, s1, s0, State.emit, Nat.zero_add] at this
    rw [this]
  · intro p q hp
    rw [hframe p q (by simp [s2, s1, s0, State.emit]; omega) (Or.inl (by omega))]
    have hp1 : p ≠ s.calls + 1 := by omega
    simp [s2, s1, s0, State.emit, hp1]
  · intro j hj
    have := hzero j hj
    simp only [s2, s1, s0, State.emit] at this
    rw [← this]
  · intro p hp
    rw [hzframe p (by simp [s2, s1, s0, State.emit]; omega)]
    have hp1 : p ≠ s.calls + 1 := by omega
    simp [s2, s1, s0, State.emit, hp1]
  · rw [hfrees]; rfl
  · rw [hlog]; rfl

theorem mem_chunkBlocks (sz k : Nat) : ∀ (p : Nat) (b : Block),
    b ∈ chunkBlocks sz k p → ∃ j, j < k ∧ b = ⟨p + j, .chunk, sz⟩ := by
  induction k with
  | zero => intro p b hb; simp [chunkBlocks] at hb
  | succ k ih =>
    intro p b hb
    simp only [chunkBlocks, List.mem_cons] at hb
    rcases hb with hb | hb
    · exact ⟨0, Nat.succ_pos k, by simpa using hb⟩
    · obtain ⟨j, hj, hbj⟩ := ih (p + 1) b hb
      exact ⟨j + 1, by omega, by rw [hbj]; simp; omega⟩

theorem mem_waveBlocks_chunk (n sz base : Nat) (b : Block)
    (hb : b ∈ waveBlocks n sz base) (hs : b.site = .chunk) :
    ∃ j, j < n ∧ b = ⟨base + 1 + j, .chunk, sz⟩ := by
  simp only [waveBlocks, List.mem_cons] at hb
  rcases hb with hb | hb
  · rw [hb] at hs; cases hs
  · exact mem_chunkBlocks sz n (base + 1) b hb

theorem wavesAt_congr (s s' : State) (all n k : Nat) : ∀ (i base : Nat),
    (∀ q, i ≤ q → s'.slot all q = s.slot all q) →
    (∀ p j, base ≤ p → s'.slot p j = s.slot p j) →
    WavesAt s all n k i base → WavesAt s' all n k i base := by
  induction k with
  | zero => intro _ _ _ _ _; trivial
  | succ k ih =>
    intro i base hall hrest h
    obtain ⟨h1, h2, h3, h4⟩ := h
    refine ⟨h1, by rw [hall i (Nat.le_refl i), h2], fun j hj => ?_, ?_⟩
    · rw [hrest base j (Nat.le_refl base), h3 j hj]
    · exact ih (i + 1) (base + n + 1) (fun q hq => hall q (by omega))
        (fun p j hp => hrest p j (by omega)) h4

theorem allocLoop_ok (orc : Nat → Bool) (all : Nat) (total : Int) (n : Nat)
    (hn : Int.tdiv total 1024 = (n : Int)) (hbound : 8 * n < 2 ^ 64) (k : Nat) :
    ∀ (i : Nat) (t : Int) (s : State),
    (∀ j, j < k * (n + 1) → orc (s.calls + j) = true) →
    (∃ b ∈ s.live, b.ptr = all ∧ 8 * (i + k) ≤ b.bytes) →
    all ≤ s.calls →
    INT_MIN ≤ t - k →
    ∃ s', allocLoop orc all total 1024 k i t s = .ok (t - k) s' ∧
      s'.calls = s.calls + k * (n + 1) ∧
      s'.live = s.live ++ wavesBlocks n 1024 k (s.calls + 1) ∧
      WavesAt s' all n k i (s.calls + 1) ∧
      (∀ p q, p ≤ s.calls → (p ≠ all ∨ q < i) → s'.slot p q = s.slot p q) ∧
      (∀ b ∈ wavesBlocks n 1024 k (s.calls + 1), b.site = .chunk → s'.zeroed b.ptr = 1024) ∧
      (∀ p, p ≤ s.calls → s'.zeroed p = s.zeroed p) ∧
      s'.freed = s.freed ∧ s'.log = s.log ++ allocLog total 1024 k := by
  induction k with
  | zero =>
    intro i t s _ _ _ _
    exact ⟨s, by simp [allocLoop], by simp, by simp [wavesBlocks], trivial,
      fun _ _ _ _ => rfl, fun b hb => by simp [wavesBlocks] at hb, fun _ _ => rfl, rfl,
      by simp [allocLog]⟩
  | succ k ih =>
    intro i t s horc hall hle hmin
    obtain ⟨b, hb, hbp, hbn⟩ := hall
    have hmin1 : ¬ (t - 1 < INT_MIN) := by
      have : t - ((k + 1 : Nat) : Int) ≤ t - 1 := by push_cast; omega
      omega
    have hmul : (k + 1) * (n + 1) = k * (n + 1) + (n + 1) := Nat.succ_mul k (n + 1)
    obtain ⟨s1, hrun1, hcalls1, hlive1, hslot1, hframe1, hzero1, hzframe1, hfrees1, hlog1⟩ :=
      eat_ok orc total n s hn hbound (fun j hj => horc j (by omega))
    have hv1 : validBytes all (8 * (i + 1)) s1 = true :=
      validBytes_of_mem (b := b) (by rw [hlive1]; exact List.mem_append_left _ hb) hbp
        (by omega)
    let s2 : State :=
      { s1 with slot := fun q j => if q = all ∧ j = i then s.calls + 1 else s1.slot q j }
    let s3 : State := s2.emit (.sleep 1)
    have hstep : allocLoop orc all total 1024 (k + 1) i t s =
        allocLoop orc all total 1024 k (i + 1) (t - 1) s3 := by
      rw [allocLoop, hrun1]
      simp only []
      rw [store_ok all i (s.calls + 1) s1 hv1]
      simp only [Nat.succ_ne_zero, if_false, hmin1]
    have hc3 : s3.calls = s.calls + (n + 1) := hcalls1
    obtain ⟨s', hrun, hcalls, hlive, hwaves, hframe, hzero, hzframe, hfrees, hlog⟩ :=
      ih (i + 1) (t - 1) s3
        (fun j hj => by
          have := horc (n + 1 + j) (by omega)
          rw [hc3, Nat.add_assoc]; exact this)
        ⟨b, by
          show b ∈ s1.live
          rw [hlive1]; exact List.mem_append_left _ hb, hbp, by omega⟩
        (by rw [hc3]; omega)
        (by
          have : t - ((k + 1 : Nat) : Int) = t - 1 - (k : Int) := by push_cast; ring
          rw [← this]; exact hmin)
    rw [hc3] at hcalls hlive hwaves hframe hzero hzframe
    have hs3live : s3.live = s1.live := rfl
    have hs3zero : s3.zeroed = s1.zeroed := rfl
    refine ⟨s', ?_, ?_, ?_, ?_, ?_, ?_, ?_, ?_, ?_⟩
    · rw [hstep, hrun]; congr 1; push_cast; ring
    · rw [hcalls]; omega
    · rw [hlive, hs3live, hlive1, wavesBlocks, List.append_assoc]
      rw [show s.calls + (n + 1) + 1 = s.calls + 1 + n + 1 by omega]
    · refine ⟨by omega, ?_, fun j hj => ?_, ?_⟩
      · rw [hframe all i (by omega) (Or.inr (Nat.lt_succ_self i))]
        simp [s3, s2, State.emit]
      · rw [hframe (s.calls + 1) j (by omega) (Or.inl (by omega))]
        have hne : ¬ (s.calls + 1 = all ∧ j = i) := fun h => by omega
        show (if s.calls + 1 = all ∧ j = i then s.calls + 1 else s1.slot (s.calls + 1) j) = _
        rw [if_neg hne, hslot1 j hj]
      · rw [show s.calls + 1 + n + 1 = s.calls + (n + 1) + 1 by omega]
        exact hwaves
    · intro p q hp hpq
      rw [hframe p q (by omega) (by rcases hpq with h | h; exact Or.inl h; exact Or.inr (by omega))]
      have hne : ¬ (p = all ∧ q = i) := by
        rintro ⟨h1, h2⟩
        rcases hpq with h | h
        · exact h h1
        · omega
      show (if p = all ∧ q = i then s.calls + 1 else s1.slot p q) = _
      rw [if_neg hne, hframe1 p q hp]
    · intro c hc hsite
      rw [wavesBlocks, List.mem_append] at hc
      rcases hc with hc | hc
      · obtain ⟨j, hj, hcj⟩ := mem_waveBlocks_chunk n 1024 (s.calls + 1) c hc hsite
        rw [hcj]
        show s'.zeroed (s.calls + 1 + 1 + j) = 1024
        rw [hzframe (s.calls + 1 + 1 + j) (by omega), hs3zero,
          show s.calls + 1 + 1 + j = s.calls + 2 + j by omega, hzero1 j hj]
      · rw [show s.calls + 1 + n + 1 = s.calls + (n + 1) + 1 by omega] at hc
        exact hzero c hc hsite
    · intro p hp
      rw [hzframe p (by omega), hs3zero, hzframe1 p hp]
    · rw [hfrees]; exact hfrees1
    · rw [hlog]
      show (s1.log ++ [Event.sleep 1]) ++ allocLog total 1024 k = _
      rw [hlog1]
      simp [allocLog]

/-! ## Releasing a wave -/

theorem filter_ptr_mid (A B : List Block) (b : Block)
    (hs : (A ++ b :: B).Pairwise (fun x y => x.ptr < y.ptr)) :
    (A ++ b :: B).filter (fun c => c.ptr != b.ptr) = A ++ B := by
  rw [List.pairwise_append, List.pairwise_cons] at hs
  obtain ⟨_, ⟨hB, _⟩, hA⟩ := hs
  have hA' : A.filter (fun c => c.ptr != b.ptr) = A := by
    rw [List.filter_eq_self]
    intro a ha
    have := hA a ha b (List.mem_cons_self b B)
    simp only [bne_iff_ne, ne_eq]
    omega
  have hB' : B.filter (fun c => c.ptr != b.ptr) = B := by
    rw [List.filter_eq_self]
    intro a ha
    have := hB a ha
    simp only [bne_iff_ne, ne_eq]
    omega
  rw [List.filter_append, List.filter_cons, hA', hB']
  simp

theorem free_mid (s : State) (A B : List Block) (b : Block)
    (hl : s.live = A ++ b :: B) (hs : s.live.Pairwise (fun x y => x.ptr < y.ptr))
    (hp : b.ptr ≠ 0) :
    free b.ptr s = some { s with live := A ++ B, freed := s.freed ++ [b.ptr] } := by
  have hany : s.live.any (fun c => c.ptr == b.ptr) = true := by
    rw [List.any_eq_true]
    exact ⟨b, by rw [hl]; simp, by simp⟩
  have hf := filter_ptr_mid A B b (hl ▸ hs)
  unfold free
  simp only [hp, if_false, hany, if_true]
  rw [hl, hf]

theorem sorted_mid (A B : List Block) (b : Block)
    (hs : (A ++ b :: B).Pairwise (fun x y => x.ptr < y.ptr)) :
    (A ++ B).Pairwise (fun x y => x.ptr < y.ptr) :=
  hs.sublist (List.Sublist.append_left (List.sublist_cons_self b B) A)

theorem digestLoop_ok (eaten sz : Nat) (A B : List Block) (k : Nat) :
    ∀ (i p : Nat) (s : State),
    s.live = A ++ (chunkBlocks sz k p ++ B) →
    s.live.Pairwise (fun x y => x.ptr < y.ptr) →
    0 < p →
    (∃ b ∈ A, b.ptr = eaten ∧ 8 * (i + k) ≤ b.bytes) →
    (∀ j, j < k → s.slot eaten (i + j) = p + j) →
    ∃ s', digestLoop eaten k i s = .ok () s' ∧ s'.live = A ++ B ∧
      s'.slot = s.slot ∧ s'.zeroed = s.zeroed ∧ s'.calls = s.calls ∧
      s'.freed = s.freed ++ (chunkBlocks sz k p).map Block.ptr ∧ s'.log = s.log := by
  induction k with
  | zero =>
    intro i p s hl _ _ _ _
    exact ⟨s, rfl, by simpa [chunkBlocks] using hl, rfl, rfl, rfl, by simp [chunkBlocks], rfl⟩
  | succ k ih =>
    intro i p s hl hs hp hal hslot
    obtain ⟨b, hb, hbp, hbn⟩ := hal
    have hl' : s.live = A ++ (⟨p, .chunk, sz⟩ : Block) :: (chunkBlocks sz k (p + 1) ++ B) := by
      rw [hl]; simp [chunkBlocks]
    have hv : validBytes eaten (8 * (i + 1)) s = true :=
      validBytes_of_mem (b := b) (by rw [hl]; exact List.mem_append_left _ hb) hbp (by omega)
    have hs0 : s.slot eaten i = p := by simpa using hslot 0 (Nat.succ_pos k)
    let s1 : State :=
      { s with live := A ++ (chunkBlocks sz k (p + 1) ++ B), freed := s.freed ++ [p] }
    have hfree : free p s = some s1 :=
      free_mid s A (chunkBlocks sz k (p + 1) ++ B) ⟨p, .chunk, sz⟩ hl' hs (by simp; omega)
    have hstep : digestLoop eaten (k + 1) i s = digestLoop eaten k (i + 1) s1 := by
      rw [digestLoop, load_ok eaten i s hv]
      simp only [hs0]
      rw [hfree]
    obtain ⟨s', hrun, hlive, hsl, hz, hc, hf, hlog⟩ :=
      ih (i + 1) (p + 1) s1 rfl (sorted_mid A _ _ (hl' ▸ hs)) (Nat.succ_pos p)
        ⟨b, hb, hbp, by omega⟩
        (fun j hj => by
          have := hslot (j + 1) (by omega)
          show s.slot eaten (i + 1 + j) = p + 1 + j
          rw [show i + 1 + j = i + (j + 1) by omega, this]; omega)
    exact ⟨s', by rw [hstep, hrun], hlive, hsl, hz, hc, by rw [hf]; simp [s1, chunkBlocks], hlog⟩

theorem digest_ok (total : Int) (n : Nat) (hn : Int.tdiv total 1024 = (n : Int))
    (A B : List Block) (base : Nat) (s : State)
    (hl : s.live = A ++ (waveBlocks n 1024 base ++ B))
    (hs : s.live.Pairwise (fun x y => x.ptr < y.ptr))
    (hbase : 0 < base)
    (hslot : ∀ j, j < n → s.slot base j = base + 1 + j) :
    ∃ s', digest base total 1024 s = .ok () s' ∧ s'.live = A ++ B ∧
      s'.slot = s.slot ∧ s'.zeroed = s.zeroed ∧ s'.calls = s.calls ∧
      s'.freed = s.freed ++ ((chunkBlocks 1024 n (base + 1)).map Block.ptr ++ [base]) ∧
      s'.log = s.log ++ [.digest base total 1024] := by
  let s0 : State := s.emit (.digest base total 1024)
  have hl0 : s0.live = (A ++ [⟨base, .index, 8 * n⟩]) ++ (chunkBlocks 1024 n (base + 1) ++ B) := by
    show s.live = _
    rw [hl]; simp [waveBlocks]
  obtain ⟨s1, hrun1, hlive1, hsl1, hz1, hc1, hf1, hlog1⟩ :=
    digestLoop_ok base 1024 (A ++ [⟨base, .index, 8 * n⟩]) B n 0 (base + 1) s0 hl0 hs
      (Nat.succ_pos base) ⟨⟨base, .index, 8 * n⟩, by simp, rfl, by simp⟩
      (fun j hj => by
        show s.slot base (0 + j) = base + 1 + j
        rw [Nat.zero_add, hslot j hj])
  have hsorted1 : s1.live.Pairwise (fun x y => x.ptr < y.ptr) := by
    rw [hlive1]
    have : s.live = A ++ [⟨base, .index, 8 * n⟩] ++ (chunkBlocks 1024 n (base + 1) ++ B) := hl0
    rw [this] at hs
    exact hs.sublist
      (List.Sublist.append_left (List.sublist_append_right _ B) (A ++ [⟨base, .index, 8 * n⟩]))
  have hlive1' : s1.live = A ++ (⟨base, .index, 8 * n⟩ : Block) :: B := by
    rw [hlive1]; simp
  let s2 : State := { s1 with live := A ++ B, freed := s1.freed ++ [base] }
  have hfree : free base s1 = some s2 :=
    free_mid s1 A B ⟨base, .index, 8 * n⟩ hlive1' hsorted1 (by simp; omega)
  have hstep : digest base total 1024 s = .ok () s2 := by
    unfold digest
    simp only [show (1024 : Int) ≠ 0 by decide, if_false, hn, Int.toNat_natCast]
    rw [show digestLoop base n 0 (s.emit (.digest base total 1024)) = .ok () s1 from hrun1]
    simp only []
    rw [hfree]
  exact ⟨s2, hstep, rfl, hsl1, hz1, hc1,
    by show s1.freed ++ [base] = _; rw [hf1]; simp only [List.append_assoc]; rfl,
    by show s1.log = _; rw [hlog1]; rfl⟩

theorem releaseLoop_ok (all : Nat) (total : Int) (n : Nat)
    (hn : Int.tdiv total 1024 = (n : Int)) (A : List Block) (k : Nat) :
    ∀ (i base : Nat) (s : State),
    s.live = A ++ wavesBlocks n 1024 k base →
    s.live.Pairwise (fun x y => x.ptr < y.ptr) →
    0 < base →
    (∃ b ∈ A, b.ptr = all ∧ 8 * (i + k) ≤ b.bytes) →
    WavesAt s all n k i base →
    ∃ s', releaseLoop all total 1024 k i s = .ok () s' ∧ s'.live = A ∧
      s'.calls = s.calls ∧
      (∃ F, s'.freed = s.freed ++ F ∧ F.Perm ((wavesBlocks n 1024 k base).map Block.ptr)) ∧
      s'.log = s.log ++ releaseLog total 1024 n k base := by
  induction k with
  | zero =>
    intro i base s hl _ _ _ _
    exact ⟨s, rfl, by simpa [wavesBlocks] using hl, rfl,
      ⟨[], by simp, by simp [wavesBlocks]⟩, by simp [releaseLog]⟩
  | succ k ih =>
    intro i base s hl hs hbase hal hw
    obtain ⟨b, hb, hbp, hbn⟩ := hal
    obtain ⟨hlt, hsl, hidx, hrest⟩ := hw
    have hl' : s.live = A ++ (waveBlocks n 1024 base ++ wavesBlocks n 1024 k (base + n + 1)) := by
      rw [hl, wavesBlocks]
    have hv : validBytes all (8 * (i + 1)) s = true :=
      validBytes_of_mem (b := b) (by rw [hl]; exact List.mem_append_left _ hb) hbp (by omega)
    obtain ⟨s1, hrun1, hlive1, hsl1, hz1, hc1, hf1, hlog1⟩ :=
      digest_ok total n hn A (wavesBlocks n 1024 k (base + n + 1)) base s hl' hs hbase hidx
    have hv1 : validBytes all (8 * (i + 1)) s1 = true :=
      validBytes_of_mem (b := b) (by rw [hlive1]; exact List.mem_append_left _ hb) hbp
        (by omega)
    let s2 : State :=
      { s1 with slot := fun q j => if q = all ∧ j = i then 0 else s1.slot q j }
    have hstep : releaseLoop all total 1024 (k + 1) i s =
        releaseLoop all total 1024 k (i + 1) s2 := by
      rw [releaseLoop, load_ok all i s hv]
      simp only [hsl]
      rw [hrun1]
      simp only []
      rw [store_ok all i 0 s1 hv1]
    have hsorted1 : s1.live.Pairwise (fun x y => x.ptr < y.ptr) := by
      rw [hlive1]
      rw [hl'] at hs
      exact hs.sublist (List.Sublist.append_left (List.sublist_append_right _ _) A)
    have hw2 : WavesAt s2 all n k (i + 1) (base + n + 1) :=
      wavesAt_congr s s2 all n k (i + 1) (base + n + 1)
        (fun q hq => by
          have hne : ¬ (all = all ∧ q = i) := fun h => by omega
          show (if all = all ∧ q = i then 0 else s1.slot all q) = _
          rw [if_neg hne, hsl1])
        (fun p j hp => by
          have hne : ¬ (p = all ∧ j = i) := fun h => by omega
          show (if p = all ∧ j = i then 0 else s1.slot p j) = _
          rw [if_neg hne, hsl1])
        hrest
    obtain ⟨s', hrun, hlive, hc, hf, hlog⟩ :=
      ih (i + 1) (base + n + 1) s2 hlive1 hsorted1 (by omega) ⟨b, hb, hbp, by omega⟩ hw2
    obtain ⟨F, hF, hperm⟩ := hf
    refine ⟨s', by rw [hstep, hrun], hlive, by rw [hc]; exact hc1, ?_, ?_⟩
    · refine ⟨((chunkBlocks 1024 n (base + 1)).map Block.ptr ++ [base]) ++ F, ?_, ?_⟩
      · rw [hF]
        show s1.freed ++ F = _
        rw [hf1, List.append_assoc]
      · rw [wavesBlocks, List.map_append]
        refine List.Perm.append ?_ hperm
        rw [waveBlocks, List.map_cons]
        exact List.perm_append_singleton _ _
    · rw [hlog]
      show s1.log ++ _ = _
      rw [hlog1]; simp [releaseLog]

/-! ## Whole runs -/

theorem chunkBlocks_range (sz k p : Nat) (b : Block) (hb : b ∈ chunkBlocks sz k p) :
    p ≤ b.ptr ∧ b.ptr < p + k ∧ b.bytes = sz := by
  obtain ⟨j, hj, hbj⟩ := mem_chunkBlocks sz k p b hb
  rw [hbj]
  exact ⟨Nat.le_add_right p j, by simp; omega, rfl⟩

theorem sorted_chunkBlocks (sz k : Nat) : ∀ (p : Nat),
    (chunkBlocks sz k p).Pairwise (fun x y => x.ptr < y.ptr) := by
  induction k with
  | zero => intro p; simp [chunkBlocks]
  | succ k ih =>
    intro p
    rw [chunkBlocks, List.pairwise_cons]
    exact ⟨fun b hb => (chunkBlocks_range sz k (p + 1) b hb).1, ih (p + 1)⟩

theorem waveBlocks_range (n sz base : Nat) (b : Block) (hb : b ∈ waveBlocks n sz base) :
    base ≤ b.ptr ∧ b.ptr ≤ base + n := by
  simp only [waveBlocks, List.mem_cons] at hb
  rcases hb with hb | hb
  · rw [hb]; simp
  · have := chunkBlocks_range sz n (base + 1) b hb
    omega

theorem sorted_waveBlocks (n sz base : Nat) :
    (waveBlocks n sz base).Pairwise (fun x y => x.ptr < y.ptr) := by
  rw [waveBlocks, List.pairwise_cons]
  exact ⟨fun b hb => (chunkBlocks_range sz n (base + 1) b hb).1, sorted_chunkBlocks sz n _⟩

theorem wavesBlocks_ge (n sz k : Nat) : ∀ (base : Nat) (b : Block),
    b ∈ wavesBlocks n sz k base → base ≤ b.ptr := by
  induction k with
  | zero => intro base b hb; simp [wavesBlocks] at hb
  | succ k ih =>
    intro base b hb
    rw [wavesBlocks, List.mem_append] at hb
    rcases hb with hb | hb
    · exact (waveBlocks_range n sz base b hb).1
    · have := ih (base + n + 1) b hb
      omega

theorem sorted_wavesBlocks (n sz k : Nat) : ∀ (base : Nat),
    (wavesBlocks n sz k base).Pairwise (fun x y => x.ptr < y.ptr) := by
  induction k with
  | zero => intro base; simp [wavesBlocks]
  | succ k ih =>
    intro base
    rw [wavesBlocks, List.pairwise_append]
    refine ⟨sorted_waveBlocks n sz base, ih (base + n + 1), fun a ha b hb => ?_⟩
    have h1 := (waveBlocks_range n sz base a ha).2
    have h2 := wavesBlocks_ge n sz k (base + n + 1) b hb
    omega

theorem chunkBytes_append (l₁ l₂ : List Block) :
    chunkBytes (l₁ ++ l₂) = chunkBytes l₁ + chunkBytes l₂ := by
  simp [chunkBytes]

theorem chunkBytes_chunkBlocks (sz k : Nat) : ∀ (p : Nat),
    chunkBytes (chunkBlocks sz k p) = k * sz := by
  induction k with
  | zero => intro p; simp [chunkBlocks, chunkBytes]
  | succ k ih =>
    intro p
    have := ih (p + 1)
    simp only [chunkBytes] at this
    simp only [chunkBlocks, chunkBytes, List.filter_cons, decide_True, if_true, List.map_cons,
      List.sum_cons, this]
    rw [Nat.succ_mul]; omega

theorem chunkBytes_waveBlocks (n sz base : Nat) :
    chunkBytes (waveBlocks n sz base) = n * sz := by
  have := chunkBytes_chunkBlocks sz n (base + 1)
  simp only [chunkBytes] at this
  simp [waveBlocks, chunkBytes, this]

theorem chunkBytes_wavesBlocks (n sz k : Nat) : ∀ (base : Nat),
    chunkBytes (wavesBlocks n sz k base) = k * (n * sz) := by
  induction k with
  | zero => intro base; simp [wavesBlocks, chunkBytes]
  | succ k ih =>
    intro base
    rw [wavesBlocks, chunkBytes_append, chunkBytes_waveBlocks, ih, Nat.succ_mul]
    omega

theorem countP_chunkBlocks (sz k : Nat) : ∀ (p : Nat),
    (chunkBlocks sz k p).countP (fun b => decide (b.site = .chunk)) = k := by
  induction k with
  | zero => intro p; rfl
  | succ k ih => intro p; simp [chunkBlocks, ih]

theorem countP_wavesBlocks (n sz k : Nat) : ∀ (base : Nat),
    (wavesBlocks n sz k base).countP (fun b => decide (b.site = .chunk)) = k * n := by
  induction k with
  | zero => intro base; simp [wavesBlocks]
  | succ k ih =>
    intro base
    simp only [wavesBlocks, waveBlocks, List.countP_append, List.countP_cons, ih,
      countP_chunkBlocks, Nat.succ_mul]
    simp
    omega

theorem wavesBlocks_chunk_bytes (n sz k : Nat) : ∀ (base : Nat) (b : Block),
    b ∈ wavesBlocks n sz k base → b.site = .chunk → b.bytes = sz := by
  induction k with
  | zero => intro base b hb; simp [wavesBlocks] at hb
  | succ k ih =>
    intro base b hb hs
    rw [wavesBlocks, List.mem_append] at hb
    rcases hb with hb | hb
    · obtain ⟨j, _, hbj⟩ := mem_waveBlocks_chunk n sz base b hb hs
      rw [hbj]
    · exact ih (base + n + 1) b hb hs

theorem waveCount_pos (gradual : Int) : 1 ≤ waveCount gradual := by
  unfold waveCount
  split <;> omega

theorem alloc_phase (size timeout gradual : Int) (e : Env) (W n : Nat)
    (hW : waveCount gradual = (W : Int))
    (hn : Int.tdiv (waveSize size gradual) 1024 = (n : Int))
    (hWb : 8 * W < 2 ^ 64) (hnb : 8 * n < 2 ^ 64) (hval : ¬ timeout < gradual)
    (hmin : INT_MIN ≤ timeout - W)
    (horc : ∀ j, j < 1 + W * (n + 1) → e.orc j = true) :
    ∃ s, runWithSize size timeout gradual e =
        holdPhase (timeout - waveCount gradual) e.tty 1 (waveCount gradual)
          (waveSize size gradual) 1024 s ∧
      s.calls = 1 + W * (n + 1) ∧
      s.live = ⟨1, .waves, 8 * W⟩ :: wavesBlocks n 1024 W 2 ∧
      WavesAt s 1 n W 0 2 ∧
      (∀ b ∈ s.live, b.site = .chunk → s.zeroed b.ptr = 1024) ∧
      s.freed = [] ∧ s.log = allocLog (waveSize size gradual) 1024 W := by
  have hAC : (if gradual > 0 then gradual else (1 : Int)) = waveCount gradual := rfl
  have hAS : (if gradual > 0 then Int.tdiv size gradual else size) = waveSize size gradual := by
    unfold waveSize waveCount
    split <;> rfl
  have hsz : toSizeT (8 * waveCount gradual) = 8 * W := by
    rw [hW]
    have := toSizeT_natCast (8 * W) hWb
    rwa [Nat.cast_mul] at this
  have h0 : e.orc State.init.calls = true := horc 0 (by omega)
  let s1 : State :=
    { State.init with calls := State.init.calls + 1,
                      live := State.init.live ++ [⟨State.init.calls + 1, .waves, 8 * W⟩] }
  have hv1 : validBytes (State.init.calls + 1) (8 * W) s1 = true :=
    validBytes_of_mem (b := ⟨State.init.calls + 1, .waves, 8 * W⟩) (by simp [s1]) rfl
      (Nat.le_refl _)
  let s2 : State :=
    { s1 with zeroed := fun q => if q = State.init.calls + 1 then 8 * W else s1.zeroed q,
              slot := fun q i => if q = State.init.calls + 1 then 0 else s1.slot q i }
  obtain ⟨s3, hrun, hcalls, hlive, hwaves, _, hzero, _, hfreed, hlog⟩ :=
    allocLoop_ok e.orc 1 (waveSize size gradual) n hn hnb W 0 timeout s2
      (fun j hj => horc (1 + j) (by omega))
      ⟨⟨1, .waves, 8 * W⟩, by simp [s2, s1, State.init], rfl, by simp⟩
      (Nat.le_refl 1) hmin
  have hstep : runWithSize size timeout gradual e =
      holdPhase (timeout - waveCount gradual) e.tty 1 (waveCount gradual)
        (waveSize size gradual) 1024 s3 := by
    unfold runWithSize
    rw [if_neg hval]
    simp only [hAC, hAS, hsz]
    rw [malloc_ok e.orc .waves (8 * W) State.init h0]
    simp only []
    rw [memset_ok (State.init.calls + 1) (8 * W) s1 (Nat.succ_ne_zero _) hv1]
    simp only [hW, Int.toNat_natCast]
    rw [show allocLoop e.orc (State.init.calls + 1) (waveSize size gradual) 1024 W 0 timeout _
      = .ok (timeout - W) s3 from hrun]
    simp only [Nat.succ_ne_zero, ne_eq, not_false_eq_true, if_true]
    rfl
  refine ⟨s3, hstep, hcalls, ?_, hwaves, ?_, hfreed, ?_⟩
  · rw [hlive]; rfl
  · intro b hb hsite
    rw [hlive] at hb
    rcases List.mem_append.mp hb with hb | hb
    · have : b = ⟨1, .waves, 8 * W⟩ := by simpa [s2, s1, State.init] using hb
      rw [this] at hsite; cases hsite
    · exact hzero b hb hsite
  · rw [hlog]; rfl

theorem wave_bounds (size timeout gradual : Int)
    (hsize : 0 < size) (hmax : size ≤ LONG_MAX) (hg : gradual ≤ INT_MAX)
    (hval : ¬ timeout < gradual) (hmin : INT_MIN < timeout) :
    waveCount gradual = ((waveCount gradual).toNat : Int) ∧
    Int.tdiv (waveSize size gradual) 1024
      = ((Int.tdiv (waveSize size gradual) 1024).toNat : Int) ∧
    8 * (waveCount gradual).toNat < 2 ^ 64 ∧
    8 * (Int.tdiv (waveSize size gradual) 1024).toNat < 2 ^ 64 ∧
    INT_MIN ≤ timeout - ((waveCount gradual).toNat : Int) := by
  unfold LONG_MAX at hmax
  unfold INT_MAX at hg
  unfold INT_MIN at hmin ⊢
  have hc1 := waveCount_pos gradual
  have hc2 : waveCount gradual ≤ 2 ^ 31 - 1 ∧ timeout - waveCount gradual ≥ -(2 ^ 31) := by
    unfold waveCount
    split <;> omega
  have hs : 0 ≤ waveSize size gradual ∧ waveSize size gradual ≤ size := by
    unfold waveSize
    split
    · rw [Int.tdiv_eq_ediv (by omega) (by omega)]
      exact ⟨Int.ediv_nonneg (by omega) (by omega), Int.ediv_le_self _ (by omega)⟩
    · omega
  have hd : Int.tdiv (waveSize size gradual) 1024 = waveSize size gradual / 1024 :=
    Int.tdiv_eq_ediv hs.1 (by decide)
  have hcast : ((waveCount gradual).toNat : Int) = waveCount gradual :=
    Int.toNat_of_nonneg (by omega)
  rw [hd, hcast]
  refine ⟨rfl, (Int.toNat_of_nonneg (by omega)).symm, ?_, ?_, by omega⟩
  · omega
  · omega

theorem count_allocLog (total chunk : Int) (k : Nat) :
    (allocLog total chunk k).count (.eat total chunk) = k := by
  induction k with
  | zero => simp [allocLog]
  | succ k ih => simp [allocLog, ih]

theorem holdPhase_held (t : Int) (tty : Bool) (all : Nat) (ac sz ch : Int) (s : State) :
    (holdPhase t tty all ac sz ch s).held = some s ∧
    (holdPhase t tty all ac sz ch s).hold = some (holdChoice t tty) := by
  unfold holdPhase
  cases holdChoice t tty <;> simp only [release] <;> (repeat' split) <;> simp

theorem release_ok (h : Hold) (held s : State) (total : Int) (W n : Nat)
    (hn : Int.tdiv total 1024 = (n : Int))
    (hl : s.live = ⟨1, .waves, 8 * W⟩ :: wavesBlocks n 1024 W 2)
    (hw : WavesAt s 1 n W 0 2) :
    ∃ s', release h held 1 (W : Int) total 1024 s =
        { outcome := .finished, hold := some h, held := some held, released := true,
          final := s' } ∧
      s'.live = [] ∧ s'.calls = s.calls ∧
      (∃ F, s'.freed = s.freed ++ F ∧ F.Perm (s.live.map Block.ptr)) ∧
      s'.log = s.log ++ releaseLog total 1024 n W 2 := by
  have hsorted : s.live.Pairwise (fun x y => x.ptr < y.ptr) := by
    rw [hl, List.pairwise_cons]
    refine ⟨fun b hb => ?_, sorted_wavesBlocks n 1024 W 2⟩
    have := wavesBlocks_ge n 1024 W 2 b hb
    show 1 < b.ptr
    omega
  obtain ⟨s1, hrun, hlive, hcalls, ⟨F, hF, hperm⟩, hlog⟩ :=
    releaseLoop_ok 1 total n hn [⟨1, .waves, 8 * W⟩] W 0 2 s (by rw [hl]; rfl) hsorted
      (by decide) ⟨⟨1, .waves, 8 * W⟩, by simp, rfl, by simp⟩ hw
  let s2 : State := { s1 with live := [] ++ [], freed := s1.freed ++ [1] }
  have hfree : free 1 s1 = some s2 :=
    free_mid s1 [] [] ⟨1, .waves, 8 * W⟩ (by rw [hlive]; rfl)
      (by rw [hlive]; simp) (Nat.succ_ne_zero 0)
  refine ⟨s2, ?_, rfl, hcalls, ⟨F ++ [1], ?_, ?_⟩, hlog⟩
  · unfold release
    simp only [Int.toNat_natCast]
    rw [hrun]
    simp only []
    rw [hfree]
  · show s1.freed ++ [1] = _
    rw [hF, List.append_assoc]
  · rw [hl, List.map_cons]
    exact (List.perm_append_singleton _ _).trans (List.Perm.cons _ hperm)

theorem run_released (size timeout gradual : Int) (e : Env) (W n : Nat)
    (hW : waveCount gradual = (W : Int))
    (hn : Int.tdiv (waveSize size gradual) 1024 = (n : Int))
    (hWb : 8 * W < 2 ^ 64) (hnb : 8 * n < 2 ^ 64) (hval : ¬ timeout < gradual)
    (hmin : INT_MIN ≤ timeout - W)
    (horc : ∀ j, j < 1 + W * (n + 1) → e.orc j = true)
    (hend : holdChoice (timeout - waveCount gradual) e.tty ≠ .forever) :
    ∃ s, (runWithSize size timeout gradual e).held = some s ∧
      s.live = ⟨1, .waves, 8 * W⟩ :: wavesBlocks n 1024 W 2 ∧
      (runWithSize size timeout gradual e).hold
        = some (holdChoice (timeout - waveCount gradual) e.tty) ∧
      (runWithSize size timeout gradual e).released = true ∧
      (runWithSize size timeout gradual e).outcome = .finished ∧
      (runWithSize size timeout gradual e).final.live = [] ∧
      (runWithSize size timeout gradual e).final.calls = s.calls ∧
      (runWithSize size timeout gradual e).final.freed.Perm (s.live.map Block.ptr) ∧
      (runWithSize size timeout gradual e).final.freed.Nodup ∧
      (runWithSize size timeout gradual e).final.log =
        s.log ++ (holdChoice (timeout - waveCount gradual) e.tty).event ++
          releaseLog (waveSize size gradual) 1024 n W 2 := by
  obtain ⟨s, hrun, _, hlive, hwaves, _, hfreed, _⟩ :=
    alloc_phase size timeout gradual e W n hW hn hWb hnb hval hmin horc
  have hnodup : (s.live.map Block.ptr).Nodup := by
    have hsorted : s.live.Pairwise (fun x y => x.ptr < y.ptr) := by
      rw [hlive, List.pairwise_cons]
      refine ⟨fun b hb => ?_, sorted_wavesBlocks n 1024 W 2⟩
      have := wavesBlocks_ge n 1024 W 2 b hb
      show 1 < b.ptr
      omega
    rw [List.Nodup, List.pairwise_map]
    exact hsorted.imp (fun h => Nat.ne_of_lt h)
  have key : ∀ (h : Hold) (ev : Event), h.event = [ev] →
      holdPhase (timeout - waveCount gradual) e.tty 1 (waveCount gradual)
        (waveSize size gradual) 1024 s =
        release h s 1 (W : Int) (waveSize size gradual) 1024 (s.emit ev) →
      ∃ s', holdPhase (timeout - waveCount gradual) e.tty 1 (waveCount gradual)
          (waveSize size gradual) 1024 s =
          { outcome := .finished, hold := some h, held := some s, released := true,
            final := s' } ∧
        s'.live = [] ∧ s'.calls = s.calls ∧ s'.freed.Perm (s.live.map Block.ptr) ∧
        s'.log = s.log ++ h.event ++ releaseLog (waveSize size gradual) 1024 n W 2 := by
    intro h ev hev hphase
    obtain ⟨s', hrel, hl', hc', ⟨F, hF, hperm⟩, hlog'⟩ :=
      release_ok h s (s.emit ev) (waveSize size gradual) W n hn hlive
        (wavesAt_congr s (s.emit ev) 1 n W 0 2 (fun _ _ => rfl) (fun _ _ _ => rfl) hwaves)
    refine ⟨s', by rw [hphase, hrel], hl', hc', ?_, ?_⟩
    · rw [hF]
      show (s.freed ++ F).Perm _
      rw [hfreed, List.nil_append]
      exact hperm
    · rw [hlog', hev]; rfl
  have hres : ∃ s', holdPhase (timeout - waveCount gradual) e.tty 1 (waveCount gradual)
        (waveSize size gradual) 1024 s =
        { outcome := .finished,
          hold := some (holdChoice (timeout - waveCount gradual) e.tty),
          held := some s, released := true, final := s' } ∧
      s'.live = [] ∧ s'.calls = s.calls ∧ s'.freed.Perm (s.live.map Block.ptr) ∧
      s'.log = s.log ++ (holdChoice (timeout - waveCount gradual) e.tty).event ++
        releaseLog (waveSize size gradual) 1024 n W 2 := by
    cases hc : holdChoice (timeout - waveCount gradual) e.tty with
    | enter =>
      exact key .enter .getchar rfl (by unfold holdPhase; rw [hc]; simp only [hW])
    | sleep t =>
      exact key (.sleep t) (.sleep t) rfl (by unfold holdPhase; rw [hc]; simp only [hW])
    | forever => exact absurd hc hend
  obtain ⟨s', hphase, hl', hc', hperm, hlog'⟩ := hres
  rw [hrun, hphase]
  exact ⟨s, rfl, hlive, rfl, rfl, rfl, hl', hc', hperm, hperm.nodup_iff.mpr hnodup, hlog'⟩

/-! ## Bytes committed by a successful run -/

/-- C4: take a size `0 < size` that fits a `long`, a gradual window that fits an `int`,
options that pass the check of line 149, and an allocator that succeeds on every
call of the run.  With `waveCount` and `waveSize` as the specification defines
them, the run reaches the hold phase after exactly `waveCount` calls
`eat(waveSize, 1024)`, each followed by a sleep of one second, and nothing has
been freed.  The heap then holds the array of waves and, for every wave, an
index array and `waveSize / 1024` chunks, `waveCount * (waveSize / 1024)`
chunks in all; every chunk has 1024 bytes, all of them zero-filled, and the
chunk bytes add up to `waveCount * (waveSize / 1024) * 1024`. -/
theorem committed_bytes (size timeout gradual : Int) (e : Env)
    (hsize : 0 < size) (hmax : size ≤ LONG_MAX) (hg : gradual ≤ INT_MAX)
    (hval : ¬ timeout < gradual) (hmin : INT_MIN < timeout)
    (horc : ∀ j, j < 1 + (waveCount gradual).toNat *
      ((Int.tdiv (waveSize size gradual) 1024).toNat + 1) → e.orc j = true) :
    ∃ s, (runWithSize size timeout gradual e).held = some s ∧
      s.log = allocLog (waveSize size gradual) 1024 (waveCount gradual).toNat ∧
      s.log.count (.eat (waveSize size gradual) 1024) = (waveCount gradual).toNat ∧
      s.freed = [] ∧
      s.live = ⟨1, .waves, 8 * (waveCount gradual).toNat⟩ ::
        wavesBlocks (Int.tdiv (waveSize size gradual) 1024).toNat 1024
          (waveCount gradual).toNat 2 ∧
      (s.live.countP (fun b => decide (b.site = .chunk)) : Int) =
        waveCount gradual * Int.tdiv (waveSize size gradual) 1024 ∧
      (∀ b ∈ s.live, b.site = .chunk → b.bytes = 1024 ∧ s.zeroed b.ptr = 1024) ∧
      (chunkBytes s.live : Int) =
        waveCount gradual * Int.tdiv (waveSize size gradual) 1024 * 1024 := by
  obtain ⟨hW, hn, hWb, hnb, hmin'⟩ := wave_bounds size timeout gradual hsize hmax hg hval hmin
  obtain ⟨s, hrun, _, hlive, _, hzero, hfreed, hlog⟩ :=
    alloc_phase size timeout gradual e _ _ hW hn hWb hnb hval hmin' horc
  refine ⟨s, by rw [hrun]; exact (holdPhase_held _ _ _ _ _ _ _).1, hlog,
    by rw [hlog]; exact count_allocLog _ _ _, hfreed, hlive, ?_,
    fun b hb hsite => ⟨?_, hzero b hb hsite⟩, ?_⟩
  · have hcnt : s.live.countP (fun b => decide (b.site = .chunk)) =
        (waveCount gradual).toNat * (Int.tdiv (waveSize size gradual) 1024).toNat := by
      rw [hlive, List.countP_cons, countP_wavesBlocks]
      simp
    rw [hcnt]
    push_cast
    rw [← hW, ← hn]
  · rw [hlive, List.mem_cons] at hb
    rcases hb with hb | hb
    · rw [hb] at hsite; cases hsite
    · exact wavesBlocks_chunk_bytes _ _ _ _ b hb hsite
  · have hcb : chunkBytes s.live = (waveCount gradual).toNat *
        ((Int.tdiv (waveSize size gradual) 1024).toNat * 1024) := by
      rw [hlive, ← chunkBytes_wavesBlocks _ 1024 _ 2]
      simp [chunkBytes]
    rw [hcb]
    push_cast
    rw [← hW, ← hn]
    ring

/-- C4 at `-t 3 -g 3` with size 5000: three waves of 1666 bytes, one chunk each. -/
theorem committed_bytes_witness :
    ∃ s, (runWithSize 5000 3 3 ⟨none, false, plenty⟩).held = some s ∧
      s.log = [.eat 1666 1024, .sleep 1, .eat 1666 1024, .sleep 1, .eat 1666 1024, .sleep 1] ∧
      (chunkBytes s.live : Int) = 3 * 1 * 1024 := by
  obtain ⟨s, h1, h2, _, _, _, _, _, h6⟩ :=
    committed_bytes 5000 3 3 ⟨none, false, plenty⟩ (by decide) (by decide) (by decide)
      (by decide) (by decide) (fun _ _ => rfl)
  exact ⟨s, h1, h2, h6⟩

/-! ## Release after a successful run -/

/-- C6: take a size `0 < size` that fits a `long`, a gradual window that fits an `int`,
options that pass the check of line 149, and an allocator that succeeds on every
call of the run.  When the hold phase is not the endless loop (the timeout
elapses or ENTER is read), the run takes the release phase and ends
normally: `digest` is called once for every wave with the arguments `eat` got,
the pointers passed to `free` are exactly the blocks that were live when the hold
began (the chunks, the index arrays and the array of waves), each once, no call
of `free` is invalid, and no block stays allocated. -/
theorem release_complete (size timeout gradual : Int) (e : Env)
    (hsize : 0 < size) (hmax : size ≤ LONG_MAX) (hg : gradual ≤ INT_MAX)
    (hval : ¬ timeout < gradual) (hmin : INT_MIN < timeout)
    (horc : ∀ j, j < 1 + (waveCount gradual).toNat *
      ((Int.tdiv (waveSize size gradual) 1024).toNat + 1) → e.orc j = true)
    (hend : holdChoice (timeout - waveCount gradual) e.tty ≠ .forever) :
    ∃ s, (runWithSize size timeout gradual e).held = some s ∧
      s.live = ⟨1, .waves, 8 * (waveCount gradual).toNat⟩ ::
        wavesBlocks (Int.tdiv (waveSize size gradual) 1024).toNat 1024
          (waveCount gradual).toNat 2 ∧
      (runWithSize size timeout gradual e).hold
        = some (holdChoice (timeout - waveCount gradual) e.tty) ∧
      (runWithSize size timeout gradual e).released = true ∧
      (runWithSize size timeout gradual e).outcome = .finished ∧
      (runWithSize size timeout gradual e).final.live = [] ∧
      (runWithSize size timeout gradual e).final.calls = s.calls ∧
      (runWithSize size timeout gradual e).final.freed.Perm (s.live.map Block.ptr) ∧
      (runWithSize size timeout gradual e).final.freed.Nodup ∧
      (runWithSize size timeout gradual e).final.log =
        s.log ++ (holdChoice (timeout - waveCount gradual) e.tty).event ++
          releaseLog (waveSize size gradual) 1024
            (Int.tdiv (waveSize size gradual) 1024).toNat (waveCount gradual).toNat 2 := by
  obtain ⟨hW, hn, hWb, hnb, hmin'⟩ := wave_bounds size timeout gradual hsize hmax hg hval hmin
  exact run_released size timeout gradual e _ _ hW hn hWb hnb hval hmin' horc hend

/-- C6 at `-t 5` with size 1024: one chunk is allocated, and it is freed. -/
theorem release_complete_witness :
    ∃ s, (runWithSize 1024 5 (-1) ⟨none, false, plenty⟩).held = some s ∧
      s.live = [⟨1, .waves, 8⟩, ⟨2, .index, 8⟩, ⟨3, .chunk, 1024⟩] ∧
      (runWithSize 1024 5 (-1) ⟨none, false, plenty⟩).outcome = .finished ∧
      (runWithSize 1024 5 (-1) ⟨none, false, plenty⟩).final.live = [] ∧
      (runWithSize 1024 5 (-1) ⟨none, false, plenty⟩).final.freed.Perm
        (s.live.map Block.ptr) := by
  obtain ⟨s, h1, h2, _, _, h5, h6, _, h8, _⟩ :=
    release_complete 1024 5 (-1) ⟨none, false, plenty⟩ (by decide) (by decide) (by decide)
      (by decide) (by decide) (fun _ _ => rfl) (by decide)
  exact ⟨s, h1, h2, h5, h6, h8⟩

end EatMemory
